import Mathlib

/-!
# Verification of the GeneVector training core (genevector/model.py)

Shallow embedding of the embedding model and training loop of
`src/genevector/model.py`.  Torch tensors are idealized as lists of
rationals; the one genuinely external numeric primitive (the
autodiff/Adadelta parameter update performed by `loss.backward()` and
`self.optimizer.step()`) is kept as an explicit function parameter
`optStep` of the trainer, since its numerics live in the torch library,
not in this repository.  Everything else — the forward score, the two
regularization penalties, the loss bookkeeping, the epoch loop with its
logging, convergence check and exports, the path derivation and the
device check — is translated directly from the source.
-/

namespace GV

/-- A dense matrix: a list of rows of rationals (idealizing a torch tensor). -/
abbrev Mat := List (List ℚ)

/-- Per-pair reduction used by `forward`: `torch.sum(w_i * w_j, dim=1)`
restricted to one row pair — elementwise product summed across the
embedding dimension. -/
def dot (a b : List ℚ) : ℚ := (List.zipWith (· * ·) a b).sum

/-- The state of `GeneVectorModel` (model.py lines 39-50): the two
embedding tables `wi`, `wj` plus the constructor-recorded sizes. -/
structure GeneVectorModel where
  num_embeddings : Nat
  embedding_dim : Nat
  wi : Mat
  wj : Mat

/-- Method `GeneVectorModel.forward` (model.py lines 52-56): look up the
input-role row for each entry of `i_indices` and the output-role row for
each entry of `j_indices`, multiply elementwise and sum over the
embedding dimension.  A pure function of the tables. -/
def GeneVectorModel.forward (m : GeneVectorModel) (i_indices j_indices : List Nat) : List ℚ :=
  (List.zip i_indices j_indices).map
    (fun p => dot (m.wi.getD p.1 []) (m.wj.getD p.2 []))

/-- Method `GeneVectorModel.save_embedding` (model.py lines 58-67), as the list of
lines of the written file: a header line `"<len(id2word)> <embedding_dim>"`
followed, in the iteration order of `id2word`, by one line
`"<name> <dim_0> ... <dim_{d-1}>"` per mapping entry, space separated.
`layer = 0` selects the input-role table `wi`, any other layer selects `wj`. -/
def GeneVectorModel.save_embedding (m : GeneVectorModel)
    (id2word : List (Nat × String)) (layer : Nat) : List String :=
  let embedding := if layer = 0 then m.wi else m.wj
  (toString id2word.length ++ " " ++ toString m.embedding_dim) ::
    id2word.map (fun p =>
      p.2 ++ " " ++ String.intercalate " " ((embedding.getD p.1 []).map toString))

/-- The scan of Python's `s.replace(".vec", "2.vec")` (model.py lines
171/178) on the character list of the path: every non-overlapping
occurrence of ".vec", scanned left to right, is replaced by "2.vec".
Each step consumes at least one character, so the scan takes at most
`length` steps; the `fuel` argument carries that bound to make the
recursion structural. -/
def pyReplaceVecAux : Nat → List Char → List Char
  | 0, _ => []
  | _, [] => []
  | fuel + 1, c :: rest =>
    if List.isPrefixOf ['.', 'v', 'e', 'c'] (c :: rest) then
      '2' :: '.' :: 'v' :: 'e' :: 'c' :: pyReplaceVecAux fuel (rest.drop 3)
    else
      c :: pyReplaceVecAux fuel rest

/-- Python's `s.replace(".vec", "2.vec")` on a character list. -/
def pyReplaceVec (l : List Char) : List Char := pyReplaceVecAux l.length l

/-- The path the output-role table is exported to:
`output_file_name.replace(".vec", "2.vec")`. -/
def outputPath2 (output_file_name : String) : String :=
  String.mk (pyReplaceVec output_file_name.data)

/-- Whether ".vec" occurs somewhere in a character list. -/
def hasVec : List Char → Bool
  | [] => false
  | c :: rest => List.isPrefixOf ['.', 'v', 'e', 'c'] (c :: rest) || hasVec rest

/-- The path derivation as the spec's sentence for claim C4 reads it:
only the trailing ".vec" suffix is replaced by "2.vec" (a path not ending
in ".vec" is left unchanged). -/
def specReplaceTrailingVec (p : String) : String :=
  if p.data.reverse.take 4 == ['c', 'e', 'v', '.'] then
    String.mk (p.data.take (p.data.length - 4) ++ ['2', '.', 'v', 'e', 'c'])
  else p

/-- Device handling in `GeneVector.__init__` (model.py lines 102-108):
an error is raised exactly when the requested device string is "cuda" and
CUDA is unavailable; the model is moved to the GPU only in the
`device == "cuda"` branch, so for every other device string the
parameters stay where they were created, on "cpu".  The `ok` payload is
the device the parameters end up on. -/
def devicePlacement (device : String) (use_cuda : Bool) : Except String String :=
  if device = "cuda" ∧ use_cuda = false then
    Except.error "CUDA requested but no GPU available."
  else if device = "cuda" then Except.ok "cuda"
  else Except.ok "cpu"

/-- The product `torch.matmul(w1, w2.t())`: entry (p, q) is the dot product of row p
of `w1` with row q of `w2`. -/
def matmulT (w1 w2 : Mat) : Mat :=
  w1.map (fun r1 => w2.map (fun r2 => dot r1 r2))

/-- The call `wTw.fill_diagonal_(0)` (model.py line 145): zero every entry whose
row index equals its column index. -/
def fillDiagonal0 (m : Mat) : Mat :=
  m.mapIdx (fun p row => row.mapIdx (fun q v => if p = q then 0 else v))

/-- The reduction `(t ** 2).sum()`: the sum of the squares of every entry. -/
def sumSq (m : Mat) : ℚ :=
  (m.map (fun row => (row.map (fun v => v ^ 2)).sum)).sum

/-- STEP2, model.py lines 144-147: the orthogonality penalty
`t1 = alpha * ((w1 @ w2.T with zeroed diagonal) ** 2).sum()`. -/
def orthoPenalty (alpha : ℚ) (w1 w2 : Mat) : ℚ :=
  alpha * sumSq (fillDiagonal0 (matmulT w1 w2))

/-- The call `torch.diag` on a square matrix: the vector of diagonal entries. -/
def diagOf (m : Mat) : List ℚ :=
  m.mapIdx (fun p row => row.getD p 0)

/-- STEP3, model.py lines 150-154: the magnitude penalty
`t2 = beta * ((diag(w1 @ w2.T) - ent) ** 2).sum()`. -/
def magPenalty (beta : ℚ) (w1 w2 : Mat) (ent : List ℚ) : ℚ :=
  beta * (List.zipWith (fun a b => (a - b) ^ 2) (diagOf (matmulT w1 w2)) ent).sum

/-- The loss `nn.MSELoss()` with its default mean reduction. -/
def mseLoss (outputs targets : List ℚ) : ℚ :=
  (List.zipWith (fun o t => (o - t) ^ 2) outputs targets).sum / (outputs.length : ℚ)

/-- One batch yielded by `dataset.get_batches`: the target values and the
two index sequences. -/
structure Batch where
  x_ij : List ℚ
  i_idx : List Nat
  j_idx : List Nat

/-- The `GeneVector` trainer object (model.py lines 69-113).  `id2gene`,
`ent` and `batches` stand for the dataset collaborator's
`data.id2gene` (a dict, hence a list in insertion order), `_ent` and one
sweep of `get_batches(batch_size)`; `optStep` is the opaque
backward-plus-Adadelta parameter update the torch library performs for
one batch.  `logs` records the epoch numbers at which the diagnostic
line of lines 163-167 was printed, and `exports` the files written by
`save_embedding`, in order. -/
structure GeneVector where
  model : GeneVectorModel
  output_file_name : String
  id2gene : List (Nat × String)
  ent : List ℚ
  batches : List Batch
  optStep : GeneVectorModel → Batch → GeneVectorModel
  epoch : Nat
  loss_values : List ℚ
  mean_loss_values : List ℚ
  logs : List Nat
  exports : List (String × List String)

/-- The scalar appended to `loss_values` for one batch (model.py lines
137-157): MSE of the forward scores against the targets, plus the two
penalties, all evaluated on the weights as they stand before this
batch's optimizer step. -/
def batchLoss (alpha beta : ℚ) (gv : GeneVector) (m : GeneVectorModel) (b : Batch) : ℚ :=
  mseLoss (m.forward b.i_idx b.j_idx) b.x_ij
    + orthoPenalty alpha m.wi m.wj
    + magPenalty beta m.wi m.wj gv.ent

/-- One iteration of the inner batch loop (model.py lines 134-160):
compute the total loss from the current weights, let the optimizer
update the weights, append the loss value to the trace. -/
def runBatch (alpha beta : ℚ) (gv : GeneVector) (b : Batch) : GeneVector :=
  { gv with
    model := gv.optStep gv.model b
    loss_values := gv.loss_values ++ [batchLoss alpha beta gv gv.model b] }

/-- The mean `numpy.mean` of a list of rationals (callers give it nonempty lists). -/
def npMean (xs : List ℚ) : ℚ := xs.sum / (xs.length : ℚ)

/-- Python's `xs[-n:]`: the last `min n (length xs)` elements. -/
def lastN (n : Nat) (xs : List ℚ) : List ℚ := xs.drop (xs.length - n)

/-- One epoch body up to the convergence check (model.py lines 133-167):
run every batch of the sweep, append the 10-sample trailing mean to
`mean_loss_values`, emit the diagnostic line when the cumulative epoch
counter is divisible by the update interval.  Returns the updated state
together with `curr_loss`. -/
def epochStep (alpha beta : ℚ) (interval : Nat) (gv : GeneVector) : GeneVector × ℚ :=
  let gv1 := gv.batches.foldl (runBatch alpha beta) gv
  let curr := npMean (lastN 10 gv1.loss_values)
  let gv2 := { gv1 with
    mean_loss_values := gv1.mean_loss_values ++ [curr]
    logs := gv1.logs ++ (if gv1.epoch % interval = 0 then [gv1.epoch] else []) }
  (gv2, curr)

/-- The double export performed both on convergence (model.py lines
170-171) and on exhaustion (lines 177-178): the input-role table to
`output_file_name`, the output-role table to the ".vec"-replaced path. -/
def exportEmbeddings (gv : GeneVector) : GeneVector :=
  { gv with
    exports := gv.exports
      ++ [(gv.output_file_name, gv.model.save_embedding gv.id2gene 0),
          (outputPath2 gv.output_file_name, gv.model.save_embedding gv.id2gene 1)] }

/-- The state at the start of the next epoch: epoch body then the
`self.epoch += 1` of line 175. -/
def nextEpochState (alpha beta : ℚ) (interval : Nat) (gv : GeneVector) : GeneVector :=
  let s := (epochStep alpha beta interval gv).1
  { s with epoch := s.epoch + 1 }

/-- The epoch loop of `GeneVector.train` (model.py lines 131-178), with
the remaining epoch count as fuel and the local `last_loss` threaded
through.  A `some` threshold models `type(threshold) == float`; when the
convergence test passes the loop exports both tables and returns at
once, and when the fuel runs out it exports both tables. -/
def trainLoop (threshold : Option ℚ) (interval : Nat) (alpha beta : ℚ) :
    Nat → ℚ → GeneVector → GeneVector
  | 0, _, gv => exportEmbeddings gv
  | fuel + 1, last_loss, gv =>
    let p := epochStep alpha beta interval gv
    match threshold with
    | some t =>
      if |p.2 - last_loss| < t then exportEmbeddings p.1
      else trainLoop threshold interval alpha beta fuel p.2 { p.1 with epoch := p.1.epoch + 1 }
    | none => trainLoop threshold interval alpha beta fuel p.2 { p.1 with epoch := p.1.epoch + 1 }

/-- Method `GeneVector.train(epochs, threshold, update_interval, alpha, beta)`:
`last_loss` starts at 0.0 (line 131) and the loop runs for at most
`epochs` epochs. -/
def GeneVector.train (gv : GeneVector) (epochs : Nat) (threshold : Option ℚ)
    (interval : Nat) (alpha beta : ℚ) : GeneVector :=
  trainLoop threshold interval alpha beta epochs 0 gv

/-- The state after `k` epochs of the loop when no early return fires
(peeling from the front, so one unfolding step is definitional). -/
def afterEpochs (alpha beta : ℚ) (interval : Nat) : Nat → GeneVector → GeneVector
  | 0, gv => gv
  | k + 1, gv => afterEpochs alpha beta interval k (nextEpochState alpha beta interval gv)

/-- The `curr_loss` observed at the end of the e-th epoch (e ≥ 1) of a run
started from `gv`. -/
def currAt (alpha beta : ℚ) (interval : Nat) (gv : GeneVector) (e : Nat) : ℚ :=
  (epochStep alpha beta interval (afterEpochs alpha beta interval (e - 1) gv)).2

/-- The `last_loss` as it stands when the e-th epoch's convergence test runs:
0.0 before the first epoch, then the previous epoch's `curr_loss`. -/
def lastAt (alpha beta : ℚ) (interval : Nat) (gv : GeneVector) (e : Nat) : ℚ :=
  if e ≤ 1 then 0 else currAt alpha beta interval gv (e - 1)

/-- Well-formedness of the model state: both tables have one row per
vocabulary index and every row has the embedding dimension's length. -/
abbrev wellShaped (m : GeneVectorModel) (V D : Nat) : Prop :=
  m.num_embeddings = V ∧ m.embedding_dim = D ∧
  m.wi.length = V ∧ m.wj.length = V ∧
  (∀ r ∈ m.wi, r.length = D) ∧ (∀ r ∈ m.wj, r.length = D)

/-- Method `GeneVector.save` (model.py lines 180-181): the persisted state dict
of the model is its two weight tables. -/
def GeneVector.save (gv : GeneVector) : Mat × Mat :=
  (gv.model.wi, gv.model.wj)

/-- Method `GeneVector.load` (model.py lines 183-185) as written: it calls
`self.gnn.load_state_dict(...)`, but `__init__` (lines 86-113) never
assigns a `gnn` attribute, so the attribute lookup raises
`AttributeError`.  The `gnn` field below is the optional attribute slot;
a constructed trainer always has `none` there. -/
def GeneVector.load (gnn : Option GeneVectorModel) (gv : GeneVector)
    (saved : Mat × Mat) : Except String GeneVector :=
  match gnn with
  | none => Except.error "AttributeError: GeneVector object has no attribute gnn"
  | some g =>
      Except.ok { gv with model := { g with wi := saved.1, wj := saved.2 } }

/-- The load target the spec documents as intended (restore the trained
model's parameters): `load_state_dict` into `self.model`. -/
def GeneVector.loadIntended (gv : GeneVector) (saved : Mat × Mat) : GeneVector :=
  { gv with model := { gv.model with wi := saved.1, wj := saved.2 } }

/-- A concrete 2-gene, 2-dimensional model used to instantiate the
theorems at concrete inputs. -/
def c1m : GeneVectorModel := ⟨2, 2, [[1, 2], [3, 4]], [[5, 6], [7, 8]]⟩

/-- A concrete trainer over a 1-gene, 1-dimensional model with a single
one-pair batch and an identity optimizer step, used to instantiate the
training-loop theorems at concrete inputs. -/
def gvW : GeneVector :=
  { model := ⟨1, 1, [[0]], [[0]]⟩
    output_file_name := "out.vec"
    id2gene := [(0, "g")]
    ent := [0]
    batches := [⟨[0], [0], [0]⟩]
    optStep := fun m _ => m
    epoch := 0
    loss_values := []
    mean_loss_values := []
    logs := []
    exports := [] }

end GV

namespace GV

/-! ## Helper lemmas -/

/-- The sum of a list of rationals as a sum over its index range. -/
theorem list_sum_eq_range (l : List ℚ) :
    l.sum = ∑ k ∈ Finset.range l.length, l.getD k 0 := by
  induction l with
  | nil => simp
  | cons a t ih =>
      simp only [List.sum_cons, List.length_cons, Finset.sum_range_succ',
        List.getD_cons_succ, List.getD_cons_zero, ih]
      ring

/-- The per-pair reduction is the dot product over the embedding
dimension. -/
theorem dot_eq_sum (a b : List ℚ) (D : Nat) (ha : a.length = D) (hb : b.length = D) :
    dot a b = ∑ d ∈ Finset.range D, a.getD d 0 * b.getD d 0 := by
  unfold dot
  rw [list_sum_eq_range]
  have hz : (List.zipWith (· * ·) a b).length = D := by
    rw [List.length_zipWith, ha, hb]
    omega
  rw [hz]
  refine Finset.sum_congr rfl (fun d hd => ?_)
  have hd' : d < D := Finset.mem_range.mp hd
  rw [List.getD_eq_getElem _ _ (by rw [hz]; exact hd'), List.getElem_zipWith,
    List.getD_eq_getElem a 0 (by omega), List.getD_eq_getElem b 0 (by omega)]

/-- Row `p` of `fillDiagonal0 M`. -/
theorem fillDiag_row (M : Mat) (p : Nat) (hp : p < M.length) :
    (fillDiagonal0 M).getD p [] =
      (M.getD p []).mapIdx (fun q v => if p = q then 0 else v) := by
  unfold fillDiagonal0
  rw [List.getD_eq_getElem _ _ (by simpa [List.length_mapIdx] using hp),
    List.getElem_mapIdx, List.getD_eq_getElem _ _ hp]

/-- Row `p` of `w1 @ w2ᵀ`. -/
theorem matmulT_row (w1 w2 : Mat) (p : Nat) (hp : p < w1.length) :
    (matmulT w1 w2).getD p [] = w2.map (fun r2 => dot (w1.getD p []) r2) := by
  unfold matmulT
  rw [List.getD_eq_getElem _ _ (by simpa using hp), List.getElem_map,
    List.getD_eq_getElem _ _ hp]

/-- Sum of squares of one diagonal-zeroed row, as a Finset sum. -/
theorem rowSq_mapIdx (p : Nat) (row : List ℚ) :
    ((row.mapIdx (fun q v => if p = q then 0 else v)).map (fun v => v ^ 2)).sum
      = ∑ q ∈ Finset.range row.length, (if p = q then 0 else (row.getD q 0) ^ 2) := by
  rw [list_sum_eq_range, List.length_map, List.length_mapIdx]
  refine Finset.sum_congr rfl (fun q hq => ?_)
  have hq' := Finset.mem_range.mp hq
  rw [List.getD_eq_getElem _ _
      (by rw [List.length_map, List.length_mapIdx]; exact hq'),
    List.getElem_map, List.getElem_mapIdx, List.getD_eq_getElem _ _ hq',
    apply_ite (fun v : ℚ => v ^ 2)]
  simp

/-! ## Claims -/

/-- C1: for every model state and equal-length in-range index sequences,
`forward` returns one value per pair position, and that value is exactly
the dot product of the input-role row of the pair's first index with the
output-role row of the pair's second index.  `forward` is embedded as a
pure function of the model value, so it has no side effect on either
table. -/
theorem genevector_c1_score (m : GeneVectorModel) (V D : Nat) (hm : wellShaped m V D)
    (i_idx j_idx : List Nat) (hlen : i_idx.length = j_idx.length)
    (hi : ∀ a ∈ i_idx, a < V) (hj : ∀ a ∈ j_idx, a < V) :
    (m.forward i_idx j_idx).length = i_idx.length ∧
    ∀ k, k < i_idx.length →
      (m.forward i_idx j_idx).getD k 0 =
        ∑ d ∈ Finset.range D,
          (m.wi.getD (i_idx.getD k 0) []).getD d 0 *
            (m.wj.getD (j_idx.getD k 0) []).getD d 0 := by
  obtain ⟨hV, hD, hwi, hwj, hri, hrj⟩ := hm
  have hflen : (m.forward i_idx j_idx).length = i_idx.length := by
    unfold GeneVectorModel.forward
    rw [List.length_map, List.length_zip, hlen]
    omega
  refine ⟨hflen, fun k hk => ?_⟩
  have hkj : k < j_idx.length := by omega
  have hzl : k < (List.zip i_idx j_idx).length := by
    rw [List.length_zip]
    omega
  unfold GeneVectorModel.forward
  rw [List.getD_eq_getElem _ _ (by rw [List.length_map]; exact hzl),
    List.getElem_map, List.getElem_zip,
    List.getD_eq_getElem i_idx 0 hk, List.getD_eq_getElem j_idx 0 hkj]
  have hib : i_idx[k] < m.wi.length := by
    rw [hwi]
    exact hi _ (List.getElem_mem hk)
  have hjb : j_idx[k] < m.wj.length := by
    rw [hwj]
    exact hj _ (List.getElem_mem hkj)
  refine dot_eq_sum _ _ D ?_ ?_
  · rw [List.getD_eq_getElem _ _ hib]
    exact hri _ (List.getElem_mem hib)
  · rw [List.getD_eq_getElem _ _ hjb]
    exact hrj _ (List.getElem_mem hjb)

/-- Witness for C1: the concrete 2×2 model, indices (0,1) and (1,0). -/
theorem genevector_c1_score_witness :
    (c1m.forward [0, 1] [1, 0]).length = ([0, 1] : List Nat).length ∧
    ∀ k, k < ([0, 1] : List Nat).length →
      (c1m.forward [0, 1] [1, 0]).getD k 0 =
        ∑ d ∈ Finset.range 2,
          (c1m.wi.getD (([0, 1] : List Nat).getD k 0) []).getD d 0 *
            (c1m.wj.getD (([1, 0] : List Nat).getD k 0) []).getD d 0 :=
  genevector_c1_score c1m 2 2 (by decide) [0, 1] [1, 0] rfl (by decide) (by decide)

/-- C6: `train` with zero epochs performs no optimizer step (the model,
hence both embedding tables, is unchanged), appends nothing to the loss
trace, and still writes both export files from the initial weights. -/
theorem genevector_c6_zero_epochs (gv : GeneVector) (threshold : Option ℚ)
    (interval : Nat) (alpha beta : ℚ) :
    (gv.train 0 threshold interval alpha beta).model = gv.model ∧
    (gv.train 0 threshold interval alpha beta).loss_values = gv.loss_values ∧
    (gv.train 0 threshold interval alpha beta).exports =
      gv.exports ++
        [(gv.output_file_name, gv.model.save_embedding gv.id2gene 0),
         (outputPath2 gv.output_file_name, gv.model.save_embedding gv.id2gene 1)] :=
  ⟨rfl, rfl, rfl⟩

/-- C7: the orthogonality penalty is `alpha` times the sum of the squared
off-diagonal entries of `W_i · W_jᵀ`, and it vanishes for every `alpha`
whenever `W_i · W_jᵀ` is diagonal. -/
theorem genevector_c7_ortho_penalty (alpha : ℚ) (w1 w2 : Mat) :
    orthoPenalty alpha w1 w2 =
      alpha * ∑ p ∈ Finset.range w1.length, ∑ q ∈ Finset.range w2.length,
        (if p = q then 0 else (dot (w1.getD p []) (w2.getD q [])) ^ 2) ∧
    ((∀ p q, p < w1.length → q < w2.length → p ≠ q →
        dot (w1.getD p []) (w2.getD q []) = 0) →
      orthoPenalty alpha w1 w2 = 0) := by
  have hMlen : (matmulT w1 w2).length = w1.length := by
    unfold matmulT
    exact List.length_map _ _
  have hFlen : (fillDiagonal0 (matmulT w1 w2)).length = w1.length := by
    unfold fillDiagonal0
    rw [List.length_mapIdx, hMlen]
  have hmain : orthoPenalty alpha w1 w2 =
      alpha * ∑ p ∈ Finset.range w1.length, ∑ q ∈ Finset.range w2.length,
        (if p = q then 0 else (dot (w1.getD p []) (w2.getD q [])) ^ 2) := by
    unfold orthoPenalty sumSq
    congr 1
    rw [list_sum_eq_range, List.length_map, hFlen]
    refine Finset.sum_congr rfl (fun p hp => ?_)
    have hp' := Finset.mem_range.mp hp
    rw [List.getD_eq_getElem _ _ (by rw [List.length_map, hFlen]; exact hp'),
      List.getElem_map,
      ← List.getD_eq_getElem (fillDiagonal0 (matmulT w1 w2)) [] (by omega),
      fillDiag_row _ _ (by omega), matmulT_row w1 w2 p hp', rowSq_mapIdx,
      List.length_map]
    refine Finset.sum_congr rfl (fun q hq => ?_)
    have hq' := Finset.mem_range.mp hq
    rw [List.getD_eq_getElem _ _ (by rw [List.length_map]; exact hq'),
      List.getElem_map, ← List.getD_eq_getElem w2 [] hq']
  refine ⟨hmain, fun h => ?_⟩
  rw [hmain]
  have hz : ∑ p ∈ Finset.range w1.length, ∑ q ∈ Finset.range w2.length,
      (if p = q then 0 else (dot (w1.getD p []) (w2.getD q [])) ^ 2) = 0 := by
    refine Finset.sum_eq_zero (fun p hp => Finset.sum_eq_zero (fun q hq => ?_))
    by_cases hpq : p = q
    · simp [hpq]
    · rw [if_neg hpq, h p q (Finset.mem_range.mp hp) (Finset.mem_range.mp hq) hpq]
      norm_num
  rw [hz, mul_zero]

/-- Witness for C7: a diagonal product gives a zero penalty for a sample
weight 5. -/
theorem genevector_c7_ortho_penalty_witness :
    orthoPenalty 5 [[1, 0], [0, 1]] [[2, 0], [0, 3]] =
      5 * ∑ p ∈ Finset.range 2, ∑ q ∈ Finset.range 2,
        (if p = q then 0 else
          (dot (([[1, 0], [0, 1]] : Mat).getD p [])
            (([[2, 0], [0, 3]] : Mat).getD q [])) ^ 2) ∧
    ((∀ p q, p < 2 → q < 2 → p ≠ q →
        dot (([[1, 0], [0, 1]] : Mat).getD p [])
          (([[2, 0], [0, 3]] : Mat).getD q []) = 0) →
      orthoPenalty 5 [[1, 0], [0, 1]] [[2, 0], [0, 3]] = 0) :=
  genevector_c7_ortho_penalty 5 [[1, 0], [0, 1]] [[2, 0], [0, 3]]

/-- The scan never produces output from an empty input. -/
theorem pyReplaceVecAux_nil (fuel : Nat) : pyReplaceVecAux fuel [] = [] := by
  cases fuel <;> rfl

/-- When the stem `q` contains no ".vec", the pattern cannot match at the
junction of `q ++ ".vec"` either: a match starting inside the last three
characters of `q` would need 'v', 'e' or 'c' of the appended suffix to
equal '.', which never holds. -/
theorem prefix_junction (c : Char) (q : List Char) (h : hasVec (c :: q) = false) :
    List.isPrefixOf ['.', 'v', 'e', 'c'] (c :: (q ++ ['.', 'v', 'e', 'c'])) = false := by
  match q with
  | [] => simp [List.isPrefixOf]
  | [a] => simp [List.isPrefixOf]
  | [a, b] => simp [List.isPrefixOf]
  | a :: b :: d :: q' =>
      simp only [hasVec, Bool.or_eq_false_iff] at h
      have h1 := h.1
      simp only [List.isPrefixOf, List.cons_append] at h1 ⊢
      simpa using h1

/-- The replace-all scan on `q ++ ".vec"` with a ".vec"-free stem `q`
rewrites exactly the trailing occurrence. -/
theorem replace_aux_append (fuel : Nat) (q : List Char)
    (hf : (q ++ ['.', 'v', 'e', 'c']).length ≤ fuel) (hq : hasVec q = false) :
    pyReplaceVecAux fuel (q ++ ['.', 'v', 'e', 'c']) = q ++ ['2', '.', 'v', 'e', 'c'] := by
  induction fuel generalizing q with
  | zero =>
      simp [List.length_append] at hf
  | succ f ih =>
      match q with
      | [] =>
          show pyReplaceVecAux (f + 1) ['.', 'v', 'e', 'c'] = ['2', '.', 'v', 'e', 'c']
          rw [pyReplaceVecAux, if_pos (by decide)]
          simp [pyReplaceVecAux_nil]
      | c :: q' =>
          have hj := prefix_junction c q' hq
          have hq' : hasVec q' = false := by
            simp only [hasVec, Bool.or_eq_false_iff] at hq
            exact hq.2
          rw [List.cons_append, pyReplaceVecAux, if_neg (by simp [hj])]
          rw [List.length_append] at hf
          have := ih q' (by rw [List.length_append]; simp at hf ⊢; omega) hq'
          rw [this, List.cons_append]

/-- C4 counterexample: the source uses Python's replace-all, so for the
path ".vec.vec" the output-role path is "2.vec2.vec", while replacing
only the trailing occurrence, as the claim reads, yields ".vec2.vec". -/
theorem genevector_c4_counterexample :
    outputPath2 ".vec.vec" = "2.vec2.vec" ∧
    specReplaceTrailingVec ".vec.vec" = ".vec2.vec" ∧
    outputPath2 ".vec.vec" ≠ specReplaceTrailingVec ".vec.vec" := by
  refine ⟨by decide, by decide, by decide⟩

/-- C4 amended: the output-role path is the input-role path with every
left-to-right non-overlapping occurrence of ".vec" replaced by "2.vec";
when ".vec" occurs nowhere in the stem — i.e. only as the trailing
suffix — this coincides with replacing just the trailing occurrence. -/
theorem genevector_c4_amended (q : List Char) (hq : hasVec q = false) :
    outputPath2 (String.mk (q ++ ['.', 'v', 'e', 'c'])) =
      String.mk (q ++ ['2', '.', 'v', 'e', 'c']) := by
  unfold outputPath2 pyReplaceVec
  congr 1
  exact replace_aux_append _ _ le_rfl hq

/-- Witness for C4's amended claim: "out.vec" exports to "out2.vec". -/
theorem genevector_c4_amended_witness :
    outputPath2 (String.mk (['o', 'u', 't'] ++ ['.', 'v', 'e', 'c'])) =
      String.mk (['o', 'u', 't'] ++ ['2', '.', 'v', 'e', 'c']) :=
  genevector_c4_amended ['o', 'u', 't'] (by decide)

/-- C5 counterexample: requesting the accelerated device "mps" while it
is unavailable neither raises a configuration error nor places the
parameters on "mps" — construction succeeds with the parameters on
"cpu". -/
theorem genevector_c5_counterexample :
    devicePlacement "mps" false = Except.ok "cpu" ∧ ("cpu" : String) ≠ "mps" := by
  refine ⟨rfl, by decide⟩

/-- C5 amended: construction fails exactly when the device string is
"cuda" and CUDA is unavailable; with "cuda" available the parameters are
moved to the GPU; for every other device string (including "mps" or
"cuda:0") no availability check runs and the parameters stay on "cpu". -/
theorem genevector_c5_amended (device : String) (use_cuda : Bool) :
    ((∃ msg, devicePlacement device use_cuda = Except.error msg) ↔
      device = "cuda" ∧ use_cuda = false) ∧
    (device = "cuda" → use_cuda = true →
      devicePlacement device use_cuda = Except.ok "cuda") ∧
    (device ≠ "cuda" → devicePlacement device use_cuda = Except.ok "cpu") := by
  unfold devicePlacement
  by_cases hd : device = "cuda"
  · cases use_cuda <;> simp [hd]
  · simp [hd]

/-- C8: evaluating `GeneVector.load` as written on any constructed
trainer — whose `gnn` attribute slot is empty, since `__init__` never
assigns it — raises the AttributeError instead of restoring parameters;
and the documented-intended load target (`self.model`) would make
save-then-load reproduce identical `forward` scores on every batch of
indices, for any identically-shaped fresh trainer. -/
theorem genevector_c8_load (gv : GeneVector) (gnn : Option GeneVectorModel)
    (saved : Mat × Mat) (hgnn : gnn = none) :
    GeneVector.load gnn gv saved =
      Except.error "AttributeError: GeneVector object has no attribute gnn" ∧
    ∀ (gv2 : GeneVector) (i_idx j_idx : List Nat),
      (GeneVector.loadIntended gv2 gv.save).model.forward i_idx j_idx =
        gv.model.forward i_idx j_idx := by
  subst hgnn
  exact ⟨rfl, fun gv2 i_idx j_idx => rfl⟩

/-- Witness for C8 at the concrete trainer. -/
theorem genevector_c8_load_witness :
    GeneVector.load none gvW gvW.save =
      Except.error "AttributeError: GeneVector object has no attribute gnn" ∧
    ∀ (gv2 : GeneVector) (i_idx j_idx : List Nat),
      (GeneVector.loadIntended gv2 gvW.save).model.forward i_idx j_idx =
        gvW.model.forward i_idx j_idx :=
  genevector_c8_load gvW none gvW.save rfl

/-! ## The epoch loop -/

/-- The inner batch loop leaves the log, epoch counter, batch list and
optimizer step unchanged, and appends exactly one loss value per batch. -/
theorem foldl_runBatch_fields (alpha beta : ℚ) (bs : List Batch) :
    ∀ (gv : GeneVector),
      (bs.foldl (runBatch alpha beta) gv).logs = gv.logs ∧
      (bs.foldl (runBatch alpha beta) gv).epoch = gv.epoch ∧
      (bs.foldl (runBatch alpha beta) gv).batches = gv.batches ∧
      (bs.foldl (runBatch alpha beta) gv).optStep = gv.optStep ∧
      (bs.foldl (runBatch alpha beta) gv).loss_values.length
        = gv.loss_values.length + bs.length := by
  induction bs with
  | nil => exact fun gv => ⟨rfl, rfl, rfl, rfl, by simp⟩
  | cons bt bs ih =>
      intro gv
      rw [List.foldl_cons]
      obtain ⟨h1, h2, h3, h4, h5⟩ := ih (runBatch alpha beta gv bt)
      refine ⟨h1, h2, h3, h4, ?_⟩
      rw [h5]
      simp only [runBatch, List.length_append, List.length_cons, List.length_nil]
      omega

/-- The batch loop preserves well-shapedness of the model whenever the
trainer's opaque optimizer step does. -/
theorem foldl_runBatch_wellShaped (alpha beta : ℚ) (V D : Nat) (bs : List Batch) :
    ∀ (gv : GeneVector),
      (∀ m b, wellShaped m V D → wellShaped (gv.optStep m b) V D) →
      wellShaped gv.model V D →
      wellShaped (bs.foldl (runBatch alpha beta) gv).model V D := by
  induction bs with
  | nil => exact fun gv _ hm => hm
  | cons bt bs ih =>
      intro gv hstep hm
      rw [List.foldl_cons]
      exact ih (runBatch alpha beta gv bt) hstep (hstep _ _ hm)

/-- What one full epoch changes: the model is the batch loop's, the epoch
counter goes up by one, the batch list and optimizer step persist, and
the loss trace grows by one entry per batch of the sweep. -/
theorem nextEpochState_fields (alpha beta : ℚ) (interval : Nat) (gv : GeneVector) :
    (nextEpochState alpha beta interval gv).model
      = (gv.batches.foldl (runBatch alpha beta) gv).model ∧
    (nextEpochState alpha beta interval gv).epoch = gv.epoch + 1 ∧
    (nextEpochState alpha beta interval gv).batches = gv.batches ∧
    (nextEpochState alpha beta interval gv).optStep = gv.optStep ∧
    (nextEpochState alpha beta interval gv).loss_values.length
      = gv.loss_values.length + gv.batches.length := by
  obtain ⟨h1, h2, h3, h4, h5⟩ := foldl_runBatch_fields alpha beta gv.batches gv
  refine ⟨rfl, ?_, h3, h4, h5⟩
  show (gv.batches.foldl (runBatch alpha beta) gv).epoch + 1 = gv.epoch + 1
  rw [h2]

/-- Running the loop without a convergence threshold processes every
epoch and then exports. -/
theorem trainLoop_none (interval : Nat) (alpha beta : ℚ) :
    ∀ (fuel : Nat) (last : ℚ) (gv : GeneVector),
      trainLoop none interval alpha beta fuel last gv =
        exportEmbeddings (afterEpochs alpha beta interval fuel gv) := by
  intro fuel
  induction fuel with
  | zero => intro last gv; rfl
  | succ f ih =>
      intro last gv
      show trainLoop none interval alpha beta f (epochStep alpha beta interval gv).2
          (nextEpochState alpha beta interval gv)
        = exportEmbeddings (afterEpochs alpha beta interval (f + 1) gv)
      rw [ih]
      rfl

/-- Shape and trace-length invariant along the epoch iteration. -/
theorem afterEpochs_invariant (alpha beta : ℚ) (interval : Nat) (V D : Nat) (k : Nat) :
    ∀ (gv : GeneVector),
      (∀ m b, wellShaped m V D → wellShaped (gv.optStep m b) V D) →
      wellShaped gv.model V D →
      (afterEpochs alpha beta interval k gv).optStep = gv.optStep ∧
      (afterEpochs alpha beta interval k gv).batches = gv.batches ∧
      wellShaped (afterEpochs alpha beta interval k gv).model V D ∧
      (afterEpochs alpha beta interval k gv).loss_values.length
        = gv.loss_values.length + k * gv.batches.length := by
  induction k with
  | zero => exact fun gv _ hm => ⟨rfl, rfl, hm, by simp [afterEpochs]⟩
  | succ k ih =>
      intro gv hstep hm
      obtain ⟨n1, n2, n3, n4, n5⟩ := nextEpochState_fields alpha beta interval gv
      have hm' : wellShaped (nextEpochState alpha beta interval gv).model V D := by
        rw [n1]
        exact foldl_runBatch_wellShaped alpha beta V D gv.batches gv hstep hm
      have hstep' : ∀ m b, wellShaped m V D →
          wellShaped ((nextEpochState alpha beta interval gv).optStep m b) V D := by
        intro m b h
        rw [n4]
        exact hstep m b h
      obtain ⟨a1, a2, a3, a4⟩ := ih (nextEpochState alpha beta interval gv) hstep' hm'
      refine ⟨?_, ?_, a3, ?_⟩
      · rw [show afterEpochs alpha beta interval (k + 1) gv
            = afterEpochs alpha beta interval k (nextEpochState alpha beta interval gv)
            from rfl, a1, n4]
      · rw [show afterEpochs alpha beta interval (k + 1) gv
            = afterEpochs alpha beta interval k (nextEpochState alpha beta interval gv)
            from rfl, a2, n3]
      · rw [show afterEpochs alpha beta interval (k + 1) gv
            = afterEpochs alpha beta interval k (nextEpochState alpha beta interval gv)
            from rfl, a4, n5, n3]
        ring

/-- The diagnostic log only grows along the loop. -/
theorem trainLoop_logs_mono (threshold : Option ℚ) (interval : Nat) (alpha beta : ℚ) :
    ∀ (fuel : Nat) (last : ℚ) (gv : GeneVector) (x : Nat),
      x ∈ gv.logs → x ∈ (trainLoop threshold interval alpha beta fuel last gv).logs := by
  intro fuel
  induction fuel with
  | zero => exact fun last gv x hx => hx
  | succ f ih =>
      intro last gv x hx
      have hfold : (gv.batches.foldl (runBatch alpha beta) gv).logs = gv.logs :=
        (foldl_runBatch_fields alpha beta gv.batches gv).1
      have hx1 : x ∈ (epochStep alpha beta interval gv).1.logs := by
        show x ∈ (gv.batches.foldl (runBatch alpha beta) gv).logs ++
          (if (gv.batches.foldl (runBatch alpha beta) gv).epoch % interval = 0
           then [(gv.batches.foldl (runBatch alpha beta) gv).epoch] else [])
        exact List.mem_append_left _ (by rw [hfold]; exact hx)
      cases threshold with
      | none =>
          show x ∈ (trainLoop none interval alpha beta f
            (epochStep alpha beta interval gv).2
            (nextEpochState alpha beta interval gv)).logs
          exact ih _ _ x hx1
      | some t =>
          show x ∈ (if |(epochStep alpha beta interval gv).2 - last| < t
              then exportEmbeddings (epochStep alpha beta interval gv).1
              else trainLoop (some t) interval alpha beta f
                (epochStep alpha beta interval gv).2
                (nextEpochState alpha beta interval gv)).logs
          by_cases hc : |(epochStep alpha beta interval gv).2 - last| < t
          · rw [if_pos hc]
            exact hx1
          · rw [if_neg hc]
            exact ih _ _ x hx1

/-- Peeling one epoch off the iteration. -/
theorem afterEpochs_succ (alpha beta : ℚ) (interval : Nat) (k : Nat) (gv : GeneVector) :
    afterEpochs alpha beta interval (k + 1) gv
      = afterEpochs alpha beta interval k (nextEpochState alpha beta interval gv) := rfl

/-- The k-th epoch of the shifted run is the (k+1)-st of the original. -/
theorem currAt_shift (alpha beta : ℚ) (interval : Nat) (gv : GeneVector) (k : Nat)
    (hk : 1 ≤ k) :
    currAt alpha beta interval (nextEpochState alpha beta interval gv) k
      = currAt alpha beta interval gv (k + 1) := by
  obtain ⟨m, rfl⟩ : ∃ m, k = m + 1 := ⟨k - 1, by omega⟩
  unfold currAt
  congr 1

/-- When the convergence test first passes at epoch `e`, the loop returns
right there, exporting the state reached at the end of epoch `e`. -/
theorem trainLoop_stops (alpha beta t : ℚ) (interval : Nat) :
    ∀ (e : Nat), 1 ≤ e → ∀ (fuel : Nat) (last : ℚ) (gv : GeneVector), e ≤ fuel →
      (∀ k, 1 ≤ k → k < e →
        ¬ |currAt alpha beta interval gv k
            - (if k ≤ 1 then last else currAt alpha beta interval gv (k - 1))| < t) →
      |currAt alpha beta interval gv e
          - (if e ≤ 1 then last else currAt alpha beta interval gv (e - 1))| < t →
      trainLoop (some t) interval alpha beta fuel last gv =
        exportEmbeddings (epochStep alpha beta interval
          (afterEpochs alpha beta interval (e - 1) gv)).1 := by
  intro e
  induction e with
  | zero => exact fun h => absurd h (by omega)
  | succ e ih =>
      intro _ fuel last gv hfuel hbefore hstop
      obtain ⟨f, rfl⟩ : ∃ f, fuel = f + 1 := ⟨fuel - 1, by omega⟩
      have hunfold : trainLoop (some t) interval alpha beta (f + 1) last gv =
          if |(epochStep alpha beta interval gv).2 - last| < t
          then exportEmbeddings (epochStep alpha beta interval gv).1
          else trainLoop (some t) interval alpha beta f
            (epochStep alpha beta interval gv).2
            (nextEpochState alpha beta interval gv) := rfl
      by_cases he : e = 0
      · subst he
        have hc : |(epochStep alpha beta interval gv).2 - last| < t := by
          have h1 := hstop
          rw [if_pos (by omega : 0 + 1 ≤ 1)] at h1
          exact h1
        rw [hunfold, if_pos hc]
        rfl
      · have he1 : 1 ≤ e := by omega
        have hc : ¬ |(epochStep alpha beta interval gv).2 - last| < t := by
          have h1 := hbefore 1 (le_refl 1) (by omega)
          rw [if_pos (le_refl 1)] at h1
          exact h1
        rw [hunfold, if_neg hc]
        have hb' : ∀ k, 1 ≤ k → k < e →
            ¬ |currAt alpha beta interval (nextEpochState alpha beta interval gv) k
                - (if k ≤ 1 then (epochStep alpha beta interval gv).2
                   else currAt alpha beta interval
                     (nextEpochState alpha beta interval gv) (k - 1))| < t := by
          intro k hk1 hk2
          have h1 := hbefore (k + 1) (by omega) (by omega)
          rw [currAt_shift alpha beta interval gv k hk1]
          by_cases hk : k ≤ 1
          · have hke : k = 1 := by omega
            subst hke
            rw [if_pos (le_refl 1)]
            rw [if_neg (by omega : ¬ 1 + 1 ≤ 1)] at h1
            exact h1
          · rw [if_neg hk, currAt_shift alpha beta interval gv (k - 1) (by omega)]
            rw [if_neg (by omega : ¬ k + 1 ≤ 1)] at h1
            have e1 : k - 1 + 1 = k := by omega
            have e2 : k + 1 - 1 = k := by omega
            rw [e1]
            rw [e2] at h1
            exact h1
        have hs' : |currAt alpha beta interval (nextEpochState alpha beta interval gv) e
            - (if e ≤ 1 then (epochStep alpha beta interval gv).2
               else currAt alpha beta interval
                 (nextEpochState alpha beta interval gv) (e - 1))| < t := by
          have h1 := hstop
          rw [if_neg (by omega : ¬ e + 1 ≤ 1)] at h1
          rw [currAt_shift alpha beta interval gv e he1]
          by_cases hk : e ≤ 1
          · have hke : e = 1 := by omega
            subst hke
            rw [if_pos (le_refl 1)]
            exact h1
          · rw [if_neg hk, currAt_shift alpha beta interval gv (e - 1) (by omega)]
            have e1 : e - 1 + 1 = e := by omega
            have e2 : e + 1 - 1 = e := by omega
            rw [e1]
            rw [e2] at h1
            exact h1
        have hrec := ih he1 f (epochStep alpha beta interval gv).2
          (nextEpochState alpha beta interval gv) (by omega) hb' hs'
        rw [hrec]
        obtain ⟨m, rfl⟩ : ∃ m, e = m + 1 := ⟨e - 1, by omega⟩
        rfl

/-- C2: with a float convergence threshold, the first epoch `e` at which
the trailing-10 mean differs from the previous epoch's by less than the
threshold (the previous value starting at 0.0) ends the run there: the
loop's result is exactly the end-of-epoch-`e` state with both tables
exported (input-role to the output path, output-role to the ".vec" →
"2.vec"-derived path), so no further epoch is processed. -/
theorem genevector_c2_convergence_stops (gv : GeneVector) (epochs : Nat)
    (t alpha beta : ℚ) (interval : Nat) (e : Nat)
    (hbatch : gv.batches ≠ [])
    (he1 : 1 ≤ e) (hee : e ≤ epochs)
    (hbefore : ∀ k, 1 ≤ k → k < e →
      ¬ |currAt alpha beta interval gv k - lastAt alpha beta interval gv k| < t)
    (hstop : |currAt alpha beta interval gv e - lastAt alpha beta interval gv e| < t) :
    gv.train epochs (some t) interval alpha beta =
      exportEmbeddings (epochStep alpha beta interval
        (afterEpochs alpha beta interval (e - 1) gv)).1 := by
  unfold GeneVector.train
  refine trainLoop_stops alpha beta t interval e he1 epochs 0 gv hee ?_ ?_
  · intro k hk1 hk2
    have h1 := hbefore k hk1 hk2
    simp only [lastAt] at h1
    exact h1
  · have h1 := hstop
    simp only [lastAt] at h1
    exact h1

/-- Witness for C2: the singleton trainer converges at epoch 1 under a
large threshold. -/
theorem genevector_c2_convergence_stops_witness :
    GeneVector.train gvW 1 (some 1000) 20 0 0 =
      exportEmbeddings (epochStep 0 0 20 (afterEpochs 0 0 20 0 gvW)).1 :=
  genevector_c2_convergence_stops gvW 1 1000 0 0 20 1 (List.cons_ne_nil _ _)
    (le_refl 1) (le_refl 1)
    (fun k hk1 hk2 => absurd hk2 (by omega))
    (by
      have e1 : currAt 0 0 20 gvW 1 = 0 := by
        norm_num [currAt, afterEpochs, epochStep, gvW, runBatch, batchLoss, mseLoss,
          orthoPenalty, magPenalty, matmulT, fillDiagonal0, sumSq, diagOf,
          GeneVectorModel.forward, dot, npMean, lastN, List.foldl]
      have e2 : lastAt 0 0 20 gvW 1 = 0 := rfl
      rw [e1, e2]
      norm_num)

/-- C9: the two tables keep the (V, D) shape through every epoch of the
run (given that the external optimizer step is shape-preserving, as
torch's in-place parameter update is), every vocabulary index stays a
valid row position in both tables, each batch appends exactly one value
to the loss trace, and over a full threshold-free run the trace grows by
exactly epochs × batches-per-sweep values. -/
theorem genevector_c9_invariants (gv : GeneVector) (V D : Nat)
    (epochs interval : Nat) (alpha beta : ℚ)
    (hstep : ∀ m b, wellShaped m V D → wellShaped (gv.optStep m b) V D)
    (hm : wellShaped gv.model V D) :
    (∀ (st : GeneVector) (b : Batch),
        (runBatch alpha beta st b).loss_values.length = st.loss_values.length + 1) ∧
    (∀ k, wellShaped (afterEpochs alpha beta interval k gv).model V D ∧
        (afterEpochs alpha beta interval k gv).loss_values.length
          = gv.loss_values.length + k * gv.batches.length) ∧
    wellShaped (gv.train epochs none interval alpha beta).model V D ∧
    (gv.train epochs none interval alpha beta).loss_values.length
      = gv.loss_values.length + epochs * gv.batches.length ∧
    (∀ i, i < V →
        i < (gv.train epochs none interval alpha beta).model.wi.length ∧
        i < (gv.train epochs none interval alpha beta).model.wj.length) := by
  have hper : ∀ (st : GeneVector) (b : Batch),
      (runBatch alpha beta st b).loss_values.length = st.loss_values.length + 1 := by
    intro st b
    show (st.loss_values ++ [batchLoss alpha beta st st.model b]).length = _
    simp
  have hafter := fun k => afterEpochs_invariant alpha beta interval V D k gv hstep hm
  have htrain : gv.train epochs none interval alpha beta
      = exportEmbeddings (afterEpochs alpha beta interval epochs gv) :=
    trainLoop_none interval alpha beta epochs 0 gv
  have hsh : wellShaped (gv.train epochs none interval alpha beta).model V D := by
    rw [htrain]
    exact (hafter epochs).2.2.1
  refine ⟨hper, fun k => ⟨(hafter k).2.2.1, (hafter k).2.2.2⟩, hsh, ?_, ?_⟩
  · rw [htrain]
    exact (hafter epochs).2.2.2
  · intro i hi
    obtain ⟨-, -, hwi, hwj, -, -⟩ := hsh
    exact ⟨by rw [hwi]; exact hi, by rw [hwj]; exact hi⟩

/-- Witness for C9 at the singleton trainer (identity optimizer step),
two epochs. -/
theorem genevector_c9_invariants_witness :
    (∀ (st : GeneVector) (b : Batch),
        (runBatch 0 0 st b).loss_values.length = st.loss_values.length + 1) ∧
    (∀ k, wellShaped (afterEpochs 0 0 20 k gvW).model 1 1 ∧
        (afterEpochs 0 0 20 k gvW).loss_values.length
          = gvW.loss_values.length + k * gvW.batches.length) ∧
    wellShaped (GeneVector.train gvW 2 none 20 0 0).model 1 1 ∧
    (GeneVector.train gvW 2 none 20 0 0).loss_values.length
      = gvW.loss_values.length + 2 * gvW.batches.length ∧
    (∀ i, i < 1 →
        i < (GeneVector.train gvW 2 none 20 0 0).model.wi.length ∧
        i < (GeneVector.train gvW 2 none 20 0 0).model.wj.length) :=
  genevector_c9_invariants gvW 1 1 2 20 0 0 (fun m b h => h) (by decide)

/-- C10: a freshly constructed trainer (cumulative epoch counter 0, empty
log) emits the diagnostic line during the very first epoch for every
positive update interval, because 0 mod the interval is 0 and the counter
is incremented only after the logging check. -/
theorem genevector_c10_first_epoch_logged (gv : GeneVector) (epochs interval : Nat)
    (threshold : Option ℚ) (alpha beta : ℚ)
    (hfresh : gv.epoch = 0) (hlogs : gv.logs = []) (hint : 0 < interval)
    (hep : 1 ≤ epochs) :
    0 ∈ (gv.train epochs threshold interval alpha beta).logs := by
  obtain ⟨ep, rfl⟩ : ∃ ep, epochs = ep + 1 := ⟨epochs - 1, by omega⟩
  have hfold := foldl_runBatch_fields alpha beta gv.batches gv
  have hx1 : 0 ∈ (epochStep alpha beta interval gv).1.logs := by
    show 0 ∈ (gv.batches.foldl (runBatch alpha beta) gv).logs ++
      (if (gv.batches.foldl (runBatch alpha beta) gv).epoch % interval = 0
       then [(gv.batches.foldl (runBatch alpha beta) gv).epoch] else [])
    rw [hfold.1, hfold.2.1, hlogs, hfresh]
    simp
  unfold GeneVector.train
  cases threshold with
  | none =>
      show 0 ∈ (trainLoop none interval alpha beta ep
        (epochStep alpha beta interval gv).2
        (nextEpochState alpha beta interval gv)).logs
      exact trainLoop_logs_mono none interval alpha beta ep _ _ 0 hx1
  | some t =>
      show 0 ∈ (if |(epochStep alpha beta interval gv).2 - 0| < t
          then exportEmbeddings (epochStep alpha beta interval gv).1
          else trainLoop (some t) interval alpha beta ep
            (epochStep alpha beta interval gv).2
            (nextEpochState alpha beta interval gv)).logs
      by_cases hc : |(epochStep alpha beta interval gv).2 - 0| < t
      · rw [if_pos hc]
        exact hx1
      · rw [if_neg hc]
        exact trainLoop_logs_mono (some t) interval alpha beta ep _ _ 0 hx1

/-- Witness for C10 at the singleton trainer, one epoch, interval 20. -/
theorem genevector_c10_first_epoch_logged_witness :
    0 ∈ (GeneVector.train gvW 1 none 20 0 0).logs :=
  genevector_c10_first_epoch_logged gvW 1 20 none 0 0 rfl rfl (by omega) (le_refl 1)

/-- C3: exporting with an id-to-name mapping of the vocabulary's size
writes vocabulary_size + 1 lines; the first is
"<vocabulary_size> <embedding_dimension>"; line k+1 is the name of the
mapping's k-th entry followed by the space-separated row of that entry's
index in the selected table (so row order follows mapping iteration
order, not numeric index order), and that row has the embedding
dimension's length. -/
theorem genevector_c3_export (m : GeneVectorModel) (V D : Nat)
    (id2word : List (Nat × String)) (layer : Nat)
    (hm : wellShaped m V D) (hlen : id2word.length = V)
    (hkeys : ∀ p ∈ id2word, p.1 < V) :
    (m.save_embedding id2word layer).length = V + 1 ∧
    (m.save_embedding id2word layer).getD 0 "" = toString V ++ " " ++ toString D ∧
    ∀ k, k < V →
      (m.save_embedding id2word layer).getD (k + 1) "" =
        (id2word.getD k (0, "")).2 ++ " " ++
          String.intercalate " "
            (((if layer = 0 then m.wi else m.wj).getD
                (id2word.getD k (0, "")).1 []).map toString) ∧
      ((if layer = 0 then m.wi else m.wj).getD
          (id2word.getD k (0, "")).1 []).length = D := by
  obtain ⟨hV, hD, hwi, hwj, hri, hrj⟩ := hm
  have htl : (if layer = 0 then m.wi else m.wj).length = V := by
    by_cases hl : layer = 0
    · simp [hl, hwi]
    · simp [hl, hwj]
  have hrows : ∀ r ∈ (if layer = 0 then m.wi else m.wj), r.length = D := by
    by_cases hl : layer = 0
    · simpa [hl] using hri
    · simpa [hl] using hrj
  refine ⟨?_, ?_, ?_⟩
  · show ((toString id2word.length ++ " " ++ toString m.embedding_dim) ::
        id2word.map _).length = V + 1
    rw [List.length_cons, List.length_map, hlen]
  · show ((toString id2word.length ++ " " ++ toString m.embedding_dim) ::
        id2word.map _).getD 0 "" = toString V ++ " " ++ toString D
    rw [List.getD_cons_zero, hlen, hD]
  · intro k hk
    have hk' : k < id2word.length := by omega
    have hkey : (id2word.getD k (0, "")).1 < V := by
      rw [List.getD_eq_getElem _ _ hk']
      exact hkeys _ (List.getElem_mem hk')
    have hrow : ((if layer = 0 then m.wi else m.wj).getD
        (id2word.getD k (0, "")).1 []).length = D := by
      rw [List.getD_eq_getElem _ _ (by rw [htl]; exact hkey)]
      exact hrows _ (List.getElem_mem (by rw [htl]; exact hkey))
    refine ⟨?_, hrow⟩
    show ((toString id2word.length ++ " " ++ toString m.embedding_dim) ::
        id2word.map (fun p => p.2 ++ " " ++ String.intercalate " "
          (((if layer = 0 then m.wi else m.wj).getD p.1 []).map toString))).getD
        (k + 1) "" = _
    rw [List.getD_cons_succ,
      List.getD_eq_getElem _ _ (by rw [List.length_map]; exact hk'),
      List.getElem_map, List.getD_eq_getElem _ _ hk']

/-- Witness for C3 at the concrete 2×2 model with a mapping listed out of
numeric index order. -/
theorem genevector_c3_export_witness :
    (c1m.save_embedding [(1, "b"), (0, "a")] 0).length = 2 + 1 ∧
    (c1m.save_embedding [(1, "b"), (0, "a")] 0).getD 0 ""
      = toString 2 ++ " " ++ toString 2 ∧
    ∀ k, k < 2 →
      (c1m.save_embedding [(1, "b"), (0, "a")] 0).getD (k + 1) "" =
        (([(1, "b"), (0, "a")] : List (Nat × String)).getD k (0, "")).2 ++ " " ++
          String.intercalate " "
            (((if 0 = 0 then c1m.wi else c1m.wj).getD
                (([(1, "b"), (0, "a")] : List (Nat × String)).getD k (0, "")).1
                []).map toString) ∧
      ((if 0 = 0 then c1m.wi else c1m.wj).getD
          (([(1, "b"), (0, "a")] : List (Nat × String)).getD k (0, "")).1
          []).length = 2 :=
  genevector_c3_export c1m 2 2 [(1, "b"), (0, "a")] 0 (by decide) rfl (by decide)

end GV
